import Mathlib

/-!
Verification of the scriptplan scheduling core against its specification.

The source is Cython compiled with the module-level directive cdivision=True,
so integer division and modulo follow C semantics: division of a double cast
to int truncates toward zero, and the modulo of a negative dividend is
negative.  We model wall instants as whole seconds (an integer offset from an
arbitrary Monday-midnight epoch), timedeltas as integer second counts, and the
C cast of the double quotient of whole-second quantities as Int.tdiv
(truncation toward zero of the exact quotient; in the engine's operating range
the double division of whole-second magnitudes is exact enough that the
truncated value coincides with the truncation of the exact rational quotient).
C-style modulo is Int.tmod.
-/

/-- Embeds date_to_idx_fast from scoreboard_cy.pyx.  diff_seconds is the
timedelta in seconds; the C cast of diff_seconds / resolution truncates toward
zero (Int.tdiv).  When force_into_project is set, a negative index clamps to 0
and an index at or above size clamps to size - 1. -/
def date_to_idx_fast (date start_date : Int) (resolution : Int) (size : Int)
    (force_into_project : Bool) : Int :=
  let idx := Int.tdiv (date - start_date) resolution
  if force_into_project then
    if idx < 0 then 0
    else if size ≤ idx then size - 1
    else idx
  else idx

/-- Embeds idx_to_date_fast from scoreboard_cy.pyx.  In-range (or unclamped)
indices map to start_date + idx * resolution; with clamping, a negative index
yields start_date and an index at or above size yields end_date. -/
def idx_to_date_fast (idx start_date : Int) (resolution : Int) (size : Int)
    (force_into_project : Bool) (end_date : Int) : Int :=
  if force_into_project then
    if idx < 0 then start_date
    else if size ≤ idx then end_date
    else start_date + idx * resolution
  else start_date + idx * resolution

/-- Embeds project_date_to_idx from the time-utility module: 0 when the
project start is absent, otherwise the truncated quotient of the second
difference by the granularity. -/
def project_date_to_idx (date : Int) (start : Option Int) (granularity : Int) : Int :=
  match start with
  | none => 0
  | some s => Int.tdiv (date - s) granularity

/-- Embeds project_idx_to_date from the time-utility module: none when the
project start is absent, otherwise start + idx * granularity seconds. -/
def project_idx_to_date (idx : Int) (start : Option Int) (granularity : Int) : Option Int :=
  match start with
  | none => none
  | some s => some (s + idx * granularity)

/-- Embeds scoreboard_size from the time-utility module: 0 when either bound
is absent, otherwise the truncated quotient of (end - start) by the
granularity, plus one. -/
def scoreboard_size (start stop : Option Int) (granularity : Int) : Int :=
  match start, stop with
  | some s, some e => Int.tdiv (e - s) granularity + 1
  | _, _ => 0

/-- Euclidean division of a negated dividend by a positive divisor that does
not divide it drops one below the negated quotient. -/
theorem ediv_neg_of_not_dvd {n r : Int} (hr : 0 < r) (h : ¬ r ∣ n) :
    (-n) / r = -(n / r) - 1 := by
  have hmod := Int.ediv_add_emod n r
  have h1 : 0 ≤ n % r := Int.emod_nonneg n (by omega)
  have h2 : n % r < r := Int.emod_lt_of_pos n hr
  have h3 : n % r ≠ 0 := fun hh => h (Int.dvd_of_emod_eq_zero hh)
  have h4 : (-n) / r = -(n / r) - 1 ∧ (-n) % r = r - n % r := by
    rw [Int.ediv_emod_unique hr]
    refine ⟨by linear_combination -hmod, by omega, by omega⟩
  exact h4.1

/-- Euclidean division of a negated exact multiple negates the quotient. -/
theorem ediv_neg_of_dvd {n r : Int} (hr : 0 < r) (h : r ∣ n) :
    (-n) / r = -(n / r) := by
  have hmod := Int.ediv_add_emod n r
  have h3 : n % r = 0 := Int.emod_eq_zero_of_dvd h
  have h4 : (-n) / r = -(n / r) ∧ (-n) % r = 0 := by
    rw [Int.ediv_emod_unique hr]
    refine ⟨by linear_combination h3 - hmod, by omega, by omega⟩
  exact h4.1

/-- Truncating division of a negative dividend by a positive non-dividing
divisor lands one above the floor. -/
theorem tdiv_of_neg_not_dvd {a r : Int} (hr : 0 < r) (ha : a < 0) (h : ¬ r ∣ a) :
    Int.tdiv a r = a / r + 1 := by
  have h1 : Int.tdiv a r = -(Int.tdiv (-a) r) := by
    have hh := Int.neg_tdiv (-a) r
    rw [neg_neg] at hh
    exact hh
  have h2 : Int.tdiv (-a) r = (-a) / r := Int.tdiv_eq_ediv (by omega) (by omega)
  have h3 : ¬ r ∣ (-a) := by simpa using h
  have h4 : (-(-a)) / r = -((-a) / r) - 1 := ediv_neg_of_not_dvd hr h3
  rw [neg_neg] at h4
  rw [h1, h2]
  omega

/-- C3, counterexample: 30 seconds before the project start with resolution 60,
the unclamped index is 0 (truncation toward zero), not the floor -1 that the
claim demands. -/
theorem c3_counterexample :
    date_to_idx_fast 0 30 60 100 false ≠ Int.fdiv (0 - 30) 60 := by decide

/-- C3, amended: the unclamped index of date_to_idx_fast agrees with
project_date_to_idx, and equals the floor of (t - start)/resolution on or
after the project start; but strictly before the start, when the offset is not
an exact multiple of the resolution, the C cast truncates toward zero and the
result is one above the floor, not the floor. -/
theorem c3_amended (t S r sz : Int) (hr : 0 < r) :
    date_to_idx_fast t S r sz false = project_date_to_idx t (some S) r ∧
    (S ≤ t → date_to_idx_fast t S r sz false = Int.fdiv (t - S) r) ∧
    (t < S → ¬ r ∣ (t - S) → date_to_idx_fast t S r sz false = Int.fdiv (t - S) r + 1) := by
  have e0 : date_to_idx_fast t S r sz false = Int.tdiv (t - S) r := rfl
  refine ⟨rfl, ?_, ?_⟩
  · intro h
    rw [e0, Int.tdiv_eq_ediv (by omega) (by omega), Int.fdiv_eq_ediv _ (by omega)]
  · intro h hd
    rw [e0, tdiv_of_neg_not_dvd hr (by omega) hd, Int.fdiv_eq_ediv _ (by omega)]

/-- Witness for c3_amended at t = 0, start = 30, resolution 60. -/
theorem c3_amended_witness :
    date_to_idx_fast 0 30 60 5 false = project_date_to_idx 0 (some 30) 60 ∧
    date_to_idx_fast 0 30 60 5 false = Int.fdiv (0 - 30) 60 + 1 := by
  have h := c3_amended 0 30 60 5 (by decide)
  exact ⟨h.1, h.2.2 (by decide) (by decide)⟩

/-- C4: with clamping enabled and size at least 1, the result lies in
[0, size - 1]; a negative raw index maps to 0, a raw index at or above size
maps to size - 1, an in-range raw index is returned as is; with clamping
disabled the raw (truncated) index is returned unmodified. -/
theorem c4_clamp_range (t S r sz : Int) (hsz : 1 ≤ sz) :
    (0 ≤ date_to_idx_fast t S r sz true ∧ date_to_idx_fast t S r sz true ≤ sz - 1) ∧
    (date_to_idx_fast t S r sz false < 0 → date_to_idx_fast t S r sz true = 0) ∧
    (sz ≤ date_to_idx_fast t S r sz false →
      date_to_idx_fast t S r sz true = sz - 1) ∧
    (0 ≤ date_to_idx_fast t S r sz false → date_to_idx_fast t S r sz false < sz →
      date_to_idx_fast t S r sz true = date_to_idx_fast t S r sz false) ∧
    date_to_idx_fast t S r sz false = Int.tdiv (t - S) r := by
  have e1 : date_to_idx_fast t S r sz true =
      (if Int.tdiv (t - S) r < 0 then 0
       else if sz ≤ Int.tdiv (t - S) r then sz - 1
       else Int.tdiv (t - S) r) := rfl
  have e2 : date_to_idx_fast t S r sz false = Int.tdiv (t - S) r := rfl
  rw [e1, e2]
  generalize Int.tdiv (t - S) r = x
  split_ifs <;> omega

/-- Witness for c4_clamp_range at a raw index below the project window. -/
theorem c4_clamp_range_witness :
    date_to_idx_fast 0 600 60 5 true = 0 := by
  have h := c4_clamp_range 0 600 60 5 (by decide)
  exact h.2.1 (by decide)

/-- C5, counterexample: start 0, end 30, granularity 60: the code computes
size 1 (floor plus one), while ceil((30 - 0)/60) + 1 = 2. -/
theorem c5_counterexample :
    scoreboard_size (some 0) (some 30) 60 ≠ -(Int.fdiv (0 - 30) 60) + 1 := by decide

/-- C5, amended: scoreboard_size is floor((E - S)/granularity) + 1.  This
equals ceil((E - S)/granularity) + 1 exactly when the span is a multiple of
the granularity; otherwise it equals ceil((E - S)/granularity), one less than
the claim.  The ceiling is written as the negated floor of the negated span. -/
theorem c5_amended (S E r : Int) (hr : 0 < r) (hse : S ≤ E) :
    scoreboard_size (some S) (some E) r = Int.fdiv (E - S) r + 1 ∧
    (r ∣ (E - S) → scoreboard_size (some S) (some E) r = -(Int.fdiv (S - E) r) + 1) ∧
    (¬ r ∣ (E - S) → scoreboard_size (some S) (some E) r = -(Int.fdiv (S - E) r)) := by
  have e0 : scoreboard_size (some S) (some E) r = Int.tdiv (E - S) r + 1 := rfl
  have e1 : Int.tdiv (E - S) r = (E - S) / r := Int.tdiv_eq_ediv (by omega) (by omega)
  have e3 : Int.fdiv (S - E) r = (S - E) / r := Int.fdiv_eq_ediv _ (by omega)
  have e4 : S - E = -(E - S) := by ring
  refine ⟨by rw [e0, e1, Int.fdiv_eq_ediv _ (by omega)], ?_, ?_⟩
  · intro hd
    have h5 := ediv_neg_of_dvd hr hd
    rw [e0, e1, e3, e4, h5]
    ring
  · intro hd
    have h5 := ediv_neg_of_not_dvd hr hd
    rw [e0, e1, e3, e4, h5]
    ring

/-- Witness for c5_amended at start 0, end 90, granularity 60. -/
theorem c5_amended_witness :
    scoreboard_size (some 0) (some 90) 60 = Int.fdiv (90 - 0) 60 + 1 ∧
    scoreboard_size (some 0) (some 90) 60 = -(Int.fdiv (0 - 90) 60) := by
  have h := c5_amended 0 90 60 (by decide) (by decide)
  exact ⟨h.1, h.2.2 (by decide)⟩

/-- C7: for an in-range index, both date conversions yield
start + idx * resolution (with or without clamping), and converting that
instant back with the unclamped index conversion returns the index. -/
theorem c7_index_date_roundtrip (i S r sz E : Int) (h0 : 0 ≤ i) (h1 : i < sz)
    (hr : 0 < r) :
    idx_to_date_fast i S r sz true E = S + i * r ∧
    idx_to_date_fast i S r sz false E = S + i * r ∧
    project_idx_to_date i (some S) r = some (S + i * r) ∧
    date_to_idx_fast (S + i * r) S r sz false = i ∧
    project_date_to_idx (S + i * r) (some S) r = i := by
  have key : Int.tdiv (S + i * r - S) r = i := by
    have e : S + i * r - S = i * r := by ring
    rw [e, Int.mul_tdiv_cancel _ (by omega)]
  refine ⟨?_, rfl, rfl, key, key⟩
  have e : idx_to_date_fast i S r sz true E =
      (if i < 0 then S else if sz ≤ i then E else S + i * r) := rfl
  rw [e, if_neg (by omega), if_neg (by omega)]

/-- Witness for c7_index_date_roundtrip at index 2 of a 5-slot board. -/
theorem c7_index_date_roundtrip_witness :
    idx_to_date_fast 2 100 60 5 true 400 = 100 + 2 * 60 ∧
    date_to_idx_fast (100 + 2 * 60) 100 60 5 false = 2 := by
  have h := c7_index_date_roundtrip 2 100 60 5 400 (by decide) (by decide) (by decide)
  exact ⟨h.1, h.2.2.2.1⟩

/-- An ((hour, minute)) pair as minutes from midnight, as computed inline by
the working-hours module (start_h * 60 + start_m). -/
def hmMinutes (t : Nat × Nat) : Nat := t.1 * 60 + t.2

/-- A weekly template: weekday key to list of ((start_h, start_m),
(end_h, end_m)) intervals.  Keys are Int because the previous-weekday lookup
key (weekday - 1) % 7 is computed with C-truncated modulo (cdivision=True) and
can be -1. -/
def HoursDict : Type := List (Int × List ((Nat × Nat) × (Nat × Nat)))

/-- Embeds check_working_hours_fast from the working-hours module.  The
Python control flow (early returns False when the day is absent or empty and
check_cross_midnight is off, early return True from either interval loop, and
fall-through to the previous-day loop otherwise) is equivalent to: the target
weekday's intervals cover the slot, or check_cross_midnight is on and the
previous weekday, computed as C-truncated (weekday - 1) % 7 (Int.tmod), has a
cross-midnight interval whose end lies beyond the slot. -/
def check_working_hours_fast (slot_minutes : Nat) (weekday : Int)
    (hours_dict : HoursDict) (check_cross_midnight : Bool) : Bool :=
  let sameDay :=
    match List.lookup weekday hours_dict with
    | none => false
    | some intervals =>
        intervals.any fun interval =>
          let start_minutes := hmMinutes interval.1
          let end_minutes := hmMinutes interval.2
          if end_minutes ≤ start_minutes then
            decide (start_minutes ≤ slot_minutes) || decide (slot_minutes < end_minutes)
          else
            decide (start_minutes ≤ slot_minutes) && decide (slot_minutes < end_minutes)
  sameDay ||
    (check_cross_midnight &&
      match List.lookup (Int.tmod (weekday - 1) 7) hours_dict with
      | none => false
      | some intervals =>
          intervals.any fun interval =>
            let start_minutes := hmMinutes interval.1
            let end_minutes := hmMinutes interval.2
            decide (end_minutes ≤ start_minutes) && decide (slot_minutes < end_minutes))

/-- C1, counterexample: template with only Monday 22:00-06:00.  At Monday
00:00 the code reports working time (the slot_minutes < end_minutes half of
the cross-midnight test fires on the interval's own weekday), although the
claim allows Monday only from 22:00 and puts the 00:00-06:00 half on Tuesday
alone. -/
theorem c1_counterexample :
    check_working_hours_fast 0 0 [((0 : Int), [((22, 0), (6, 0))])] false = true ∧
    ¬ (22 * 60 + 0 ≤ (0 : Nat)) := by
  refine ⟨by decide, by decide⟩

/-- C6, the code at the claim's failing input: weekday 0 (Monday) with a
template only for weekday 6 (Sunday) holding the cross-midnight interval
22:00-06:00, check_cross_midnight on, slot 00:00.  The claim requires True
(the previous weekday 6 = (0 - 1) mod 7 has a cross-midnight interval
covering minute 0), but the code computes the previous weekday with
C-truncated modulo, (0 - 1) % 7 = -1, finds no such key, and returns False. -/
theorem c6_failing_input_eval :
    check_working_hours_fast 0 0 [((6 : Int), [((22, 0), (6, 0))])] true = false := by
  decide

/-- Looking a key up in a one-entry association list. -/
theorem lookup_singleton {γ : Type} (k k' : Int) (v : γ) :
    List.lookup k [(k', v)] = if k = k' then some v else none := by
  by_cases h : k = k'
  · have hb : (k == k') = true := by simpa using h
    simp [List.lookup, hb, h]
  · have hb : (k == k') = false := by simpa using h
    simp [List.lookup, hb, h]

/-- Under the weekday conventions, the C-truncated previous-weekday key
(e - 1) tmod 7 finds the single template entry for weekday d exactly when
e = d + 1: for e = 0 the key is -1 and never matches. -/
theorem prev_lookup_singleton {γ : Type} (e d : Int) (v : γ)
    (he0 : 0 ≤ e) (he7 : e < 7) (hd0 : 0 ≤ d) :
    List.lookup (Int.tmod (e - 1) 7) [(d, v)] = if e = d + 1 then some v else none := by
  rw [lookup_singleton]
  by_cases he : e = 0
  · subst he
    have ht : Int.tmod ((0 : Int) - 1) 7 = -1 := by decide
    rw [ht, if_neg (by omega), if_neg (by omega)]
  · have h1 : Int.tmod (e - 1) 7 = e - 1 := by
      rw [Int.tmod_eq_emod (by omega) (by omega)]
      exact Int.emod_eq_of_lt (by omega) (by omega)
    rw [h1]
    by_cases h2 : e = d + 1
    · rw [if_pos (by omega), if_pos h2]
    · rw [if_neg (by omega), if_neg h2]

/-- C1, amended: for a weekly template whose only entry is weekday d carrying
the single cross-midnight interval ((sh, sm), (eh, em)), the code reports the
slot working on day d itself exactly when m is at or after the start OR
before the end (the early-morning half also counts on the interval's own
weekday), and, when check_cross_midnight is set and d is at most 5, on day
d + 1 exactly when m is before the end; no other (day, minute) pair is
working.  For d = 6 the wrap onto day 0 never fires, because the
previous-weekday key is computed with C-truncated modulo and (0 - 1) % 7 = -1
matches no weekday. -/
theorem c1_amended (d : Int) (sh sm eh em : Nat) (m : Nat) (e : Int) (check : Bool)
    (hd0 : 0 ≤ d) (hd7 : d < 7) (he0 : 0 ≤ e) (he7 : e < 7) (hm : m < 1440)
    (hcross : eh * 60 + em ≤ sh * 60 + sm) :
    (check_working_hours_fast m e [(d, [((sh, sm), (eh, em))])] check = true ↔
      ((e = d ∧ (sh * 60 + sm ≤ m ∨ m < eh * 60 + em)) ∨
       (check = true ∧ d ≤ 5 ∧ e = d + 1 ∧ m < eh * 60 + em))) := by
  have hprev := prev_lookup_singleton e d [((sh, sm), (eh, em))] he0 he7 hd0
  have hsame := lookup_singleton e d [((sh, sm), (eh, em))]
  simp only [check_working_hours_fast, hsame, hprev, hmMinutes]
  by_cases he : e = d
  · subst he
    rw [if_pos rfl, if_neg (by omega)]
    cases check <;> simp [hcross] <;> omega
  · rw [if_neg he]
    by_cases he1 : e = d + 1
    · rw [if_pos he1]
      cases check <;> simp [hcross, he] <;> omega
    · rw [if_neg he1]
      cases check <;> simp [he, he1]

/-- Witness for c1_amended: Tuesday template 22:00-06:00, slot Wednesday
03:00 with the cross-midnight check on is working time. -/
theorem c1_amended_witness :
    check_working_hours_fast 180 2 [((1 : Int), [((22, 0), (6, 0))])] true = true := by
  have h := c1_amended 1 22 0 6 0 180 2 true (by decide) (by decide) (by decide)
    (by decide) (by decide) (by decide)
  exact h.mpr (Or.inr ⟨rfl, by decide, by decide, by decide⟩)

/-- Embeds calculate_daily_hours from the working-hours module: it sums
end-minutes minus start-minutes over the interval list and divides by 60.
The single-precision float return of the Cython code is modelled as the exact
rational quotient. -/
def calculate_daily_hours (intervals : List ((Nat × Nat) × (Nat × Nat))) : ℚ :=
  let total_minutes : Int :=
    intervals.foldl
      (fun acc interval =>
        acc + ((hmMinutes interval.2 : Int) - (hmMinutes interval.1 : Int))) 0
  (total_minutes : ℚ) / 60

/-- The actual covered length of a template interval in minutes: a
cross-midnight interval (end-minutes at most start-minutes) wraps around and
covers (1440 - start) + end minutes.  Reference value for comparing against
calculate_daily_hours; taken from the claim's reading of the calendar
semantics. -/
def wrappedMinutes (interval : (Nat × Nat) × (Nat × Nat)) : Int :=
  if hmMinutes interval.2 ≤ hmMinutes interval.1 then
    (1440 - (hmMinutes interval.1 : Int)) + hmMinutes interval.2
  else (hmMinutes interval.2 : Int) - (hmMinutes interval.1 : Int)

/-- The true total daily working hours of a template: wrapped interval
lengths summed, divided by 60. -/
def wrappedDailyHours (intervals : List ((Nat × Nat) × (Nat × Nat))) : ℚ :=
  (((intervals.map wrappedMinutes).sum : Int) : ℚ) / 60

/-- Folding signed interval lengths is summing them. -/
theorem foldl_add_sum {γ : Type} (f : γ → Int) :
    ∀ (l : List γ) (a : Int), l.foldl (fun acc x => acc + f x) a = a + (l.map f).sum := by
  intro l
  induction l with
  | nil => intro a; simp
  | cons x xs ih =>
    intro a
    simp only [List.foldl_cons, List.map_cons, List.sum_cons, ih]
    ring

/-- C10: calculate_daily_hours returns the sum of end-minutes minus
start-minutes over the intervals, divided by 60; when every interval is
forward (end strictly after start) this is the true total working hours, but
a cross-midnight interval contributes a zero or negative amount instead of
its wrapped-around length, so a template containing one can total less than
the true daily hours (the concrete 22:00-06:00 interval yields -16 versus the
true 8). -/
theorem c10_daily_hours (intervals : List ((Nat × Nat) × (Nat × Nat))) :
    calculate_daily_hours intervals =
      (((intervals.map fun iv => (hmMinutes iv.2 : Int) - (hmMinutes iv.1 : Int)).sum : Int) : ℚ) / 60 ∧
    ((∀ iv ∈ intervals, hmMinutes iv.1 < hmMinutes iv.2) →
      calculate_daily_hours intervals = wrappedDailyHours intervals) ∧
    (∀ iv ∈ intervals, hmMinutes iv.2 ≤ hmMinutes iv.1 →
      (hmMinutes iv.2 : Int) - (hmMinutes iv.1 : Int) ≤ 0) ∧
    calculate_daily_hours [((22, 0), (6, 0))] < wrappedDailyHours [((22, 0), (6, 0))] := by
  have e1 : calculate_daily_hours intervals =
      (((intervals.map fun iv => (hmMinutes iv.2 : Int) - (hmMinutes iv.1 : Int)).sum : Int) : ℚ) / 60 := by
    unfold calculate_daily_hours
    rw [foldl_add_sum]
    norm_num
  refine ⟨e1, ?_, ?_, ?_⟩
  · intro hall
    have e2 : intervals.map wrappedMinutes =
        intervals.map fun iv => (hmMinutes iv.2 : Int) - (hmMinutes iv.1 : Int) := by
      apply List.map_congr_left
      intro iv hiv
      unfold wrappedMinutes
      rw [if_neg (by have := hall iv hiv; omega)]
    rw [e1]
    unfold wrappedDailyHours
    rw [e2]
  · intro iv _ hc
    omega
  · norm_num [calculate_daily_hours, wrappedDailyHours, wrappedMinutes, hmMinutes]

/-- Witness for c10_daily_hours on the forward template 09:00-17:00. -/
theorem c10_daily_hours_witness :
    calculate_daily_hours [((9, 0), (17, 0))] = wrappedDailyHours [((9, 0), (17, 0))] :=
  (c10_daily_hours [((9, 0), (17, 0))]).2.1 (by decide)

/-- The weekday of a wall instant measured in whole seconds from a
Monday-midnight epoch: naive datetime plus timedelta arithmetic shifts the
timeline linearly, so dt.weekday() is the day number since the epoch modulo
7. -/
def dtWeekday (t : Int) : Int := (Int.fdiv t 86400) % 7

/-- The hour attribute of a wall instant in seconds from a midnight epoch:
the second of the day divided by 3600. -/
def dtHour (t : Int) : Int := (t % 86400) / 3600

/-- Embeds is_working_time_fast from the time-utility module: False without a
project start; otherwise the slot instant is start + slot_idx * granularity,
weekends (weekday 5 or 6) are off, and the whole hour must satisfy
daily_start_hour <= hour < daily_end_hour. -/
def is_working_time_fast (slot_idx : Int) (start : Option Int)
    (granularity daily_start_hour daily_end_hour : Int) : Bool :=
  match start with
  | none => false
  | some s =>
    let dt := s + slot_idx * granularity
    let weekday := dtWeekday dt
    if 5 ≤ weekday then false
    else
      let hour := dtHour dt
      if hour < daily_start_hour ∨ daily_end_hour ≤ hour then false
      else true

/-- C9: the default-calendar check returns False when the project start is
absent; with a start it is True exactly when the slot instant's weekday is
below 5 (Monday to Friday) and its whole hour lies in
[daily_start_hour, daily_end_hour); it is False on weekday 5 or 6; and it
depends only on the slot instant's weekday and whole hour, never on the
minute within the hour. -/
theorem c9_default_calendar (slot_idx granularity dsh deh s : Int) :
    is_working_time_fast slot_idx none granularity dsh deh = false ∧
    (is_working_time_fast slot_idx (some s) granularity dsh deh = true ↔
      (dtWeekday (s + slot_idx * granularity) < 5 ∧
       dsh ≤ dtHour (s + slot_idx * granularity) ∧
       dtHour (s + slot_idx * granularity) < deh)) ∧
    (5 ≤ dtWeekday (s + slot_idx * granularity) →
      is_working_time_fast slot_idx (some s) granularity dsh deh = false) ∧
    (∀ i g S, dtWeekday (S + i * g) = dtWeekday (s + slot_idx * granularity) →
      dtHour (S + i * g) = dtHour (s + slot_idx * granularity) →
      is_working_time_fast i (some S) g dsh deh =
        is_working_time_fast slot_idx (some s) granularity dsh deh) := by
  have hchar : ∀ (i g S : Int),
      is_working_time_fast i (some S) g dsh deh = true ↔
        (dtWeekday (S + i * g) < 5 ∧ dsh ≤ dtHour (S + i * g) ∧ dtHour (S + i * g) < deh) := by
    intro i g S
    simp only [is_working_time_fast]
    by_cases h1 : 5 ≤ dtWeekday (S + i * g)
    · rw [if_pos h1]
      simp
      omega
    · rw [if_neg h1]
      by_cases h2 : dtHour (S + i * g) < dsh ∨ deh ≤ dtHour (S + i * g)
      · rw [if_pos h2]
        simp
        omega
      · rw [if_neg h2]
        simp
        omega
  refine ⟨rfl, hchar slot_idx granularity s, ?_, ?_⟩
  · intro h5
    cases hb : is_working_time_fast slot_idx (some s) granularity dsh deh
    · rfl
    · have := (hchar slot_idx granularity s).mp hb
      omega
  · intro i g S hw hh
    have e1 := hchar i g S
    have e2 := hchar slot_idx granularity s
    rw [hw, hh] at e1
    have e3 : is_working_time_fast i (some S) g dsh deh = true ↔
        is_working_time_fast slot_idx (some s) granularity dsh deh = true :=
      e1.trans e2.symm
    cases hA : is_working_time_fast i (some S) g dsh deh <;>
      cases hB : is_working_time_fast slot_idx (some s) granularity dsh deh <;>
        rw [hA, hB] at e3 <;> simp_all

/-- Witness for c9_default_calendar: the instant 5 hours after the Monday
epoch has the same weekday and hour as the instant 5 hours and one minute
after it, so both slots agree; here both are off-duty for a 9-to-17 day. -/
theorem c9_default_calendar_witness :
    is_working_time_fast 301 (some 0) 60 9 17 =
      is_working_time_fast 5 (some 0) 3600 9 17 :=
  (c9_default_calendar 5 3600 9 17 0).2.2.2 301 60 0 (by decide) (by decide)

/-- The predicate value the scan loop of collect_intervals_fast computes at
index idx: the slot value is sb[idx] when in range and None past the end of
the list, and the predicate is forced to False at the final scanned index
(idx < end_idx fails there). -/
def predAt {α : Type} (predicate : Option α → Bool) (sb : List α)
    (end_idx idx : Nat) : Bool :=
  if idx < end_idx then predicate sb[idx]? else false

/-- The scan loop of collect_intervals_fast from scoreboard_cy.pyx, one
parameter per loop variable: idx runs up to end_idx inclusive; duration
counts the current run; start records the run start with 0 doubling as the
no-run sentinel; intervals accumulates the output.  On a failing predicate a
run of sufficient duration is flushed with its start clamped up to s_idx and
its end index clamped down to e_idx, both converted to instants via
start_date + index * resolution. -/
def cifLoop {α β : Type} (sb : List α) (end_idx s_idx e_idx min_duration_slots : Nat)
    (start_date resolution : Int) (predicate : Option α → Bool)
    (interval_class : Int → Int → β)
    (idx duration start : Nat) (intervals : List β) : List β :=
  if _h : idx ≤ end_idx then
    if predAt predicate sb end_idx idx then
      cifLoop sb end_idx s_idx e_idx min_duration_slots start_date resolution predicate
        interval_class (idx + 1) (duration + 1) (if start = 0 then idx else start) intervals
    else
      if 0 < duration then
        if min_duration_slots ≤ duration then
          cifLoop sb end_idx s_idx e_idx min_duration_slots start_date resolution predicate
            interval_class (idx + 1) 0 0
            (intervals ++ [interval_class
              (start_date + ((if start < s_idx then s_idx else start : Nat) : Int) * resolution)
              (start_date + ((if e_idx < idx then e_idx else idx : Nat) : Int) * resolution)])
        else
          cifLoop sb end_idx s_idx e_idx min_duration_slots start_date resolution predicate
            interval_class (idx + 1) 0 0 intervals
      else
        cifLoop sb end_idx s_idx e_idx min_duration_slots start_date resolution predicate
          interval_class (idx + 1) duration start intervals
  else intervals
termination_by end_idx + 1 - idx
decreasing_by all_goals omega

/-- Embeds collect_intervals_fast from scoreboard_cy.pyx: the scan loop
started at start_idx with no current run and an empty output list.  The size
argument is accepted but, as in the source, never used. -/
def collect_intervals_fast {α β : Type} (sb : List α)
    (start_idx end_idx s_idx e_idx min_duration_slots size : Nat)
    (start_date resolution : Int) (predicate : Option α → Bool)
    (interval_class : Int → Int → β) : List β :=
  cifLoop sb end_idx s_idx e_idx min_duration_slots start_date resolution predicate
    interval_class start_idx 0 0 []

/-- The effective slot predicate: the scoreboard value (None when out of
range) fed to the caller's predicate. -/
def slotQ {α : Type} (sb : List α) (predicate : Option α → Bool) (i : Nat) : Bool :=
  predicate sb[i]?

/-- First index at or after lo (stopping at hi) where Q fails. -/
def runEnd (Q : Nat → Bool) (lo hi : Nat) : Nat :=
  if h : lo < hi then (if Q lo then runEnd Q (lo + 1) hi else lo) else lo
termination_by hi - lo
decreasing_by omega

/-- runEnd never moves backward. -/
theorem le_runEnd (Q : Nat → Bool) (lo hi : Nat) : lo ≤ runEnd Q lo hi := by
  rw [runEnd]
  by_cases h : lo < hi
  · rw [dif_pos h]
    by_cases hq : Q lo
    · rw [if_pos hq]
      have := le_runEnd Q (lo + 1) hi
      omega
    · rw [if_neg hq]
  · rw [dif_neg h]
termination_by hi - lo
decreasing_by omega

/-- runEnd stays within the bound. -/
theorem runEnd_le (Q : Nat → Bool) (lo hi : Nat) (h0 : lo ≤ hi) :
    runEnd Q lo hi ≤ hi := by
  rw [runEnd]
  by_cases h : lo < hi
  · rw [dif_pos h]
    by_cases hq : Q lo
    · rw [if_pos hq]
      exact runEnd_le Q (lo + 1) hi (by omega)
    · rw [if_neg hq]
      omega
  · rw [dif_neg h]
    exact h0
termination_by hi - lo
decreasing_by omega

/-- In front of runEnd the predicate holds. -/
theorem runEnd_true (Q : Nat → Bool) (lo hi : Nat) :
    ∀ i, lo ≤ i → i < runEnd Q lo hi → Q i = true := by
  intro i h1 h2
  rw [runEnd] at h2
  by_cases h : lo < hi
  · rw [dif_pos h] at h2
    by_cases hq : Q lo
    · rw [if_pos hq] at h2
      by_cases hi2 : lo = i
      · rw [← hi2]
        exact hq
      · exact runEnd_true Q (lo + 1) hi i (by omega) h2
    · rw [if_neg hq] at h2
      omega
  · rw [dif_neg h] at h2
    omega
termination_by hi - lo
decreasing_by omega

/-- runEnd hits the bound or a failing slot. -/
theorem runEnd_stop (Q : Nat → Bool) (lo hi : Nat) (h0 : lo ≤ hi) :
    runEnd Q lo hi = hi ∨ Q (runEnd Q lo hi) = false := by
  rw [runEnd]
  by_cases h : lo < hi
  · rw [dif_pos h]
    by_cases hq : Q lo
    · rw [if_pos hq]
      exact runEnd_stop Q (lo + 1) hi (by omega)
    · rw [if_neg hq]
      right
      revert hq
      cases Q lo <;> simp
  · rw [dif_neg h]
    left
    omega
termination_by hi - lo
decreasing_by omega

/-- One step of runEnd across a holding slot. -/
theorem runEnd_step (Q : Nat → Bool) (lo hi : Nat) (h : lo < hi) (hq : Q lo = true) :
    runEnd Q lo hi = runEnd Q (lo + 1) hi := by
  rw [runEnd, dif_pos h, if_pos hq]

/-- The maximal runs of Q inside the half-open window [lo, hi), in order. -/
def runsList (Q : Nat → Bool) (lo hi : Nat) : List (Nat × Nat) :=
  if h : lo < hi then
    if hq : Q lo = true then
      (lo, runEnd Q lo hi) :: runsList Q (runEnd Q lo hi) hi
    else runsList Q (lo + 1) hi
  else []
termination_by hi - lo
decreasing_by
  · have h1 := runEnd_step Q lo hi h hq
    have h2 := le_runEnd Q (lo + 1) hi
    omega
  · omega

/-- The start index the loop records for a run [rs, re): rs itself, except
that a run beginning at slot 0 with at least two slots records 1, because the
loop reuses start = 0 as the no-run sentinel and overwrites the recorded
start on the run's second slot. -/
def adjStart (r : Nat × Nat) : Nat :=
  if r.1 = 0 ∧ 2 ≤ r.2 - r.1 then 1 else r.1

/-- The output collect_intervals_fast produces from a list of runs: runs
shorter than min_duration_slots are dropped; a surviving run [rs, re) becomes
an interval from instant max(adjStart, s_idx) to instant min(re, e_idx). -/
def emitRuns {β : Type} (s_idx e_idx min_duration_slots : Nat)
    (start_date resolution : Int) (interval_class : Int → Int → β)
    (runs : List (Nat × Nat)) : List β :=
  (runs.filter fun r => decide (min_duration_slots ≤ r.2 - r.1)).map fun r =>
    interval_class (start_date + ((max (adjStart r) s_idx : Nat) : Int) * resolution)
      (start_date + ((min r.2 e_idx : Nat) : Int) * resolution)

/-- emitRuns unfolds one run at a time. -/
theorem emitRuns_cons {β : Type} (s_idx e_idx min_duration_slots : Nat)
    (start_date resolution : Int) (interval_class : Int → Int → β)
    (r : Nat × Nat) (runs : List (Nat × Nat)) :
    emitRuns s_idx e_idx min_duration_slots start_date resolution interval_class (r :: runs) =
      (if min_duration_slots ≤ r.2 - r.1 then
        [interval_class (start_date + ((max (adjStart r) s_idx : Nat) : Int) * resolution)
          (start_date + ((min r.2 e_idx : Nat) : Int) * resolution)]
       else []) ++
      emitRuns s_idx e_idx min_duration_slots start_date resolution interval_class runs := by
  by_cases h : min_duration_slots ≤ r.2 - r.1 <;> simp [emitRuns, h]

/-- [rs, re) is a maximal run of Q within the window [lo, hi): nonempty, in
bounds, Q holds throughout, and Q fails (or the window ends) on both sides. -/
def isRun (Q : Nat → Bool) (lo hi rs re : Nat) : Prop :=
  lo ≤ rs ∧ rs < re ∧ re ≤ hi ∧ (∀ i, rs ≤ i → i < re → Q i = true) ∧
  (rs = lo ∨ Q (rs - 1) = false) ∧ (re = hi ∨ Q re = false)

/-- Every member of runsList is a maximal run of the window. -/
theorem runsList_isRun (Q : Nat → Bool) :
    ∀ (lo hi : Nat), ∀ r ∈ runsList Q lo hi, isRun Q lo hi r.1 r.2 := by
  intro lo hi r hr
  rw [runsList] at hr
  by_cases h : lo < hi
  · rw [dif_pos h] at hr
    by_cases hq : Q lo = true
    · rw [dif_pos hq] at hr
      rcases List.mem_cons.mp hr with hr1 | hr2
      · subst hr1
        have h1 := runEnd_step Q lo hi h hq
        have h2 := le_runEnd Q (lo + 1) hi
        have h3 := runEnd_le Q lo hi (by omega)
        have h4 := runEnd_true Q lo hi
        have h5 := runEnd_stop Q lo hi (by omega)
        exact ⟨le_refl lo, by omega, h3, h4, Or.inl rfl, h5⟩
      · have ih := runsList_isRun Q (runEnd Q lo hi) hi r hr2
        have h1 := runEnd_step Q lo hi h hq
        have h2 := le_runEnd Q (lo + 1) hi
        have h3 := runEnd_le Q lo hi (by omega)
        have h5 := runEnd_stop Q lo hi (by omega)
        obtain ⟨i1, i2, i3, i4, i5, i6⟩ := ih
        refine ⟨by omega, i2, i3, i4, ?_, i6⟩
        rcases i5 with i5 | i5
        · exfalso
          have hQr1 : Q r.1 = true := i4 r.1 (le_refl r.1) i2
          rcases h5 with h5 | h5
          · omega
          · rw [← i5, hQr1] at h5
            simp at h5
        · exact Or.inr i5
    · rw [dif_neg hq] at hr
      have ih := runsList_isRun Q (lo + 1) hi r hr
      obtain ⟨i1, i2, i3, i4, i5, i6⟩ := ih
      refine ⟨by omega, i2, i3, i4, ?_, i6⟩
      rcases i5 with i5 | i5
      · right
        have : r.1 - 1 = lo := by omega
        rw [this]
        revert hq
        cases Q lo <;> simp
      · exact Or.inr i5
  · rw [dif_neg h] at hr
    simp at hr
termination_by lo hi => hi - lo
decreasing_by
  · have h1 := runEnd_step Q lo hi h hq
    have h2 := le_runEnd Q (lo + 1) hi
    omega
  · omega

/-- The scan loop, in any reachable state, appends exactly the emitted
remaining runs: started outside a run it emits the runs of [idx, end_idx);
started inside a run that began at rb (with the recorded start value the
loop's sentinel logic produces) it emits that run's completion followed by
the later runs. -/
theorem cifLoop_eq {α β : Type} (sb : List α) (predicate : Option α → Bool)
    (end_idx s_idx e_idx mind : Nat) (sd res : Int) (ic : Int → Int → β) :
    ∀ (n : Nat), ∀ (idx duration start : Nat) (acc : List β), end_idx + 1 - idx ≤ n →
      (cifLoop sb end_idx s_idx e_idx mind sd res predicate ic idx 0 0 acc =
        acc ++ emitRuns s_idx e_idx mind sd res ic
          (runsList (slotQ sb predicate) idx end_idx)) ∧
      (∀ rb, rb + duration = idx → 1 ≤ duration → idx ≤ end_idx →
        (∀ j, rb ≤ j → j < idx → slotQ sb predicate j = true) →
        start = (if rb = 0 ∧ 2 ≤ duration then 1 else rb) →
        cifLoop sb end_idx s_idx e_idx mind sd res predicate ic idx duration start acc =
          acc ++ emitRuns s_idx e_idx mind sd res ic
            ((rb, runEnd (slotQ sb predicate) idx end_idx) ::
              runsList (slotQ sb predicate) (runEnd (slotQ sb predicate) idx end_idx)
                end_idx)) := by
  intro n
  induction n with
  | zero =>
    intro idx duration start acc hn
    constructor
    · rw [cifLoop, dif_neg (by omega : ¬ idx ≤ end_idx), runsList,
        dif_neg (by omega : ¬ idx < end_idx)]
      simp [emitRuns]
    · intro rb h1 h2 h3 h4 h5
      omega
  | succ n ih =>
    intro idx duration start acc hn
    by_cases hidx : idx ≤ end_idx
    case neg =>
      constructor
      · rw [cifLoop, dif_neg hidx, runsList, dif_neg (by omega : ¬ idx < end_idx)]
        simp [emitRuns]
      · intro rb h1 h2 h3 h4 h5
        omega
    case pos =>
      constructor
      · rw [cifLoop, dif_pos hidx]
        by_cases hp : predAt predicate sb end_idx idx = true
        · rw [if_pos hp]
          have hlt : idx < end_idx := by
            by_contra hc
            rw [predAt, if_neg hc] at hp
            simp at hp
          have hq : slotQ sb predicate idx = true := by
            rw [predAt, if_pos hlt] at hp
            exact hp
          rw [if_pos rfl]
          simp only [Nat.zero_add]
          have h2 := (ih (idx + 1) 1 idx acc (by omega)).2 idx (by omega) (by omega)
            (by omega)
            (by intro j hj1 hj2
                have hji : j = idx := by omega
                rw [hji]
                exact hq)
            (by rw [if_neg (by omega)])
          have hrl : runsList (slotQ sb predicate) idx end_idx =
              (idx, runEnd (slotQ sb predicate) idx end_idx) ::
                runsList (slotQ sb predicate) (runEnd (slotQ sb predicate) idx end_idx)
                  end_idx := by
            rw [runsList]
            rw [dif_pos hlt, dif_pos hq]
          rw [h2, hrl, runEnd_step _ _ _ hlt hq]
        · rw [if_neg hp, if_neg (by omega : ¬ (0 : Nat) < 0)]
          have htail : runsList (slotQ sb predicate) idx end_idx =
              runsList (slotQ sb predicate) (idx + 1) end_idx := by
            by_cases hlt : idx < end_idx
            · have hq : ¬ slotQ sb predicate idx = true := by
                intro hc
                exact hp (by rw [predAt, if_pos hlt]; exact hc)
              rw [runsList, dif_pos hlt, dif_neg hq]
            · rw [runsList, dif_neg hlt, runsList, dif_neg (by omega : ¬ idx + 1 < end_idx)]
          rw [htail]
          exact (ih (idx + 1) 0 0 acc (by omega)).1
      · intro rb hrb hdur hle hall hstart
        rw [cifLoop, dif_pos hidx]
        by_cases hp : predAt predicate sb end_idx idx = true
        · rw [if_pos hp]
          have hlt : idx < end_idx := by
            by_contra hc
            rw [predAt, if_neg hc] at hp
            simp at hp
          have hq : slotQ sb predicate idx = true := by
            rw [predAt, if_pos hlt] at hp
            exact hp
          have hstart3 : (if start = 0 then idx else start) =
              (if rb = 0 ∧ 2 ≤ duration + 1 then 1 else rb) := by
            rw [hstart]
            by_cases h1 : rb = 0 ∧ 2 ≤ duration
            · rw [if_pos h1, if_neg (by omega : ¬ (1 : Nat) = 0),
                if_pos (show rb = 0 ∧ 2 ≤ duration + 1 from ⟨h1.1, by omega⟩)]
            · rw [if_neg h1]
              by_cases hz : rb = 0
              · rw [if_pos hz,
                  if_pos (show rb = 0 ∧ 2 ≤ duration + 1 from ⟨hz, by omega⟩)]
                omega
              · rw [if_neg hz, if_neg (by simp [hz] : ¬ (rb = 0 ∧ 2 ≤ duration + 1))]
          have h2 := (ih (idx + 1) (duration + 1)
              (if rb = 0 ∧ 2 ≤ duration + 1 then 1 else rb) acc (by omega)).2 rb
            (by omega) (by omega) (by omega)
            (by intro j hj1 hj2
                by_cases hji : j = idx
                · rw [hji]
                  exact hq
                · exact hall j hj1 (by omega))
            rfl
          rw [hstart3, h2, runEnd_step _ _ _ hlt hq]
        · rw [if_neg hp, if_pos (by omega : 0 < duration)]
          have hre : runEnd (slotQ sb predicate) idx end_idx = idx := by
            by_cases hlt : idx < end_idx
            · have hq : ¬ slotQ sb predicate idx = true := by
                intro hc
                exact hp (by rw [predAt, if_pos hlt]; exact hc)
              rw [runEnd, dif_pos hlt, if_neg hq]
            · rw [runEnd, dif_neg hlt]
          have htail : runsList (slotQ sb predicate) idx end_idx =
              runsList (slotQ sb predicate) (idx + 1) end_idx := by
            by_cases hlt : idx < end_idx
            · have hq : ¬ slotQ sb predicate idx = true := by
                intro hc
                exact hp (by rw [predAt, if_pos hlt]; exact hc)
              rw [runsList, dif_pos hlt, dif_neg hq]
            · rw [runsList, dif_neg hlt, runsList, dif_neg (by omega : ¬ idx + 1 < end_idx)]
          rw [hre, emitRuns_cons, htail]
          by_cases hmind : mind ≤ duration
          · rw [if_pos hmind, if_pos (show mind ≤ (rb, idx).2 - (rb, idx).1 by omega)]
            rw [(ih (idx + 1) 0 0 _ (by omega)).1]
            have hx1 : (if start < s_idx then s_idx else start) =
                max (adjStart (rb, idx)) s_idx := by
              rw [hstart]
              unfold adjStart
              dsimp only
              split_ifs <;> omega
            have hx2 : (if e_idx < idx then e_idx else idx) = min idx e_idx := by
              split_ifs <;> omega
            rw [hx1, hx2]
            simp
          · rw [if_neg hmind, if_neg (show ¬ mind ≤ (rb, idx).2 - (rb, idx).1 by omega)]
            rw [(ih (idx + 1) 0 0 acc (by omega)).1]
            simp

/-- C2, counterexample: scoreboard [1, 1], scan and clamp bounds 0..2,
min_duration_slots 2, predicate matching the value 1, with start_date 0 and
resolution 1 so instants read as indices.  Both slots 0 and 1 match, a
maximal run of exactly the required 2 slots, yet the returned interval is
(1, 2): the loop's start sentinel 0 overwrote the recorded run start on the
second slot, so the interval neither starts at the maximal run's start nor
spans min_duration_slots slots. -/
theorem c2_counterexample :
    collect_intervals_fast [1, 1] 0 2 0 2 2 2 0 1 (fun v => v == some 1)
        (fun a b => (a, b)) = [((1 : Int), (2 : Int))] ∧
      ¬ (2 ≤ (2 : Int) - 1) := by
  constructor
  · simp [collect_intervals_fast, cifLoop, predAt]
  · decide

/-- C2, amended: collect_intervals_fast returns exactly, in scan order, one
interval per maximal run of predicate-satisfying slots in [start_idx,
end_idx) whose full length reaches min_duration_slots; the interval's end
index is the run end (first non-matching slot) lowered to e_idx, and its
start index is the run start raised to s_idx — except that a run starting at
slot 0 with two or more slots records start index 1 (start = 0 doubles as
the loop's no-run sentinel).  Because the clamping and the slot-0 sentinel
apply after the length test, a returned interval can span fewer than
min_duration_slots slots. -/
theorem c2_amended {α β : Type} (sb : List α) (predicate : Option α → Bool)
    (start_idx end_idx s_idx e_idx min_duration_slots size : Nat)
    (start_date resolution : Int) (interval_class : Int → Int → β) :
    collect_intervals_fast sb start_idx end_idx s_idx e_idx min_duration_slots size
        start_date resolution predicate interval_class =
      emitRuns s_idx e_idx min_duration_slots start_date resolution interval_class
        (runsList (slotQ sb predicate) start_idx end_idx) := by
  have h := (cifLoop_eq sb predicate end_idx s_idx e_idx min_duration_slots start_date
    resolution interval_class (end_idx + 1) start_idx 0 0 [] (by omega)).1
  simpa [collect_intervals_fast] using h

/-- C8: every interval collect_intervals_fast returns comes from a maximal
run [rs, re) of length at least min_duration_slots; its end instant is the
slot immediately after the run's last matching slot (the half-open run end
re) clamped down to e_idx, and its start instant is some index no smaller
than s_idx. -/
theorem c8_interval_endpoints {α : Type} (sb : List α) (predicate : Option α → Bool)
    (start_idx end_idx s_idx e_idx min_duration_slots size : Nat)
    (start_date resolution : Int) :
    ∀ p ∈ collect_intervals_fast sb start_idx end_idx s_idx e_idx min_duration_slots
        size start_date resolution predicate (fun a b => (a, b)),
      ∃ rs re : Nat, isRun (slotQ sb predicate) start_idx end_idx rs re ∧
        min_duration_slots ≤ re - rs ∧
        p.2 = start_date + ((min re e_idx : Nat) : Int) * resolution ∧
        ∃ a : Nat, s_idx ≤ a ∧ p.1 = start_date + ((a : Nat) : Int) * resolution := by
  intro p hp
  have hcol := (cifLoop_eq sb predicate end_idx s_idx e_idx min_duration_slots start_date
    resolution (fun a b => (a, b)) (end_idx + 1) start_idx 0 0 [] (by omega)).1
  rw [collect_intervals_fast, hcol] at hp
  rw [List.nil_append] at hp
  unfold emitRuns at hp
  obtain ⟨r, hr, hpe⟩ := List.mem_map.mp hp
  obtain ⟨hrmem, hrfilt⟩ := List.mem_filter.mp hr
  refine ⟨r.1, r.2, runsList_isRun (slotQ sb predicate) start_idx end_idx r hrmem,
    of_decide_eq_true hrfilt, ?_, max (adjStart r) s_idx, le_max_right _ _, ?_⟩
  · rw [← hpe]
  · rw [← hpe]

/-- Witness for c8_interval_endpoints on the one-slot board [5] whose single
slot matches: the returned interval (0, 1) comes from the maximal run
[0, 1). -/
theorem c8_interval_endpoints_witness :
    ∃ rs re : Nat, isRun (slotQ [(5 : Nat)] (fun v => v == some 5)) 0 1 rs re ∧
      1 ≤ re - rs ∧
      ((0 : Int), (1 : Int)).2 = 0 + ((min re 1 : Nat) : Int) * 1 ∧
      ∃ a : Nat, 0 ≤ a ∧ ((0 : Int), (1 : Int)).1 = 0 + ((a : Nat) : Int) * 1 :=
  c8_interval_endpoints [(5 : Nat)] (fun v => v == some 5) 0 1 0 1 1 1 0 1
    ((0 : Int), (1 : Int)) (by simp [collect_intervals_fast, cifLoop, predAt])
